import Mathlib

/-!
Verification development for the cs4ai repository.

The core under scrutiny is the ignore-aware file walker
(src/utils/list_files.py), the path-forest builder
(src/utils/path_trees.py) and the tri-state flag resolution layer
(src/utils/cli_ctx_helpers.py).

Modelling conventions:
* An absolute filesystem path is its list of components (`List String`);
  the empty list is the filesystem root.  Directory-entry names are single
  components, as `os.scandir` guarantees.
* The filesystem is a finite map from an absolute directory path to the
  listing of its direct children, mirroring what `os.scandir` returns at
  each directory.
* Relative path strings handed to `expand_with_ancestors` are modelled as
  Lean `String`s; `os.path.normpath`, `pathlib.PurePath.parts` and
  `os.path.join` are translated at the character level below.
* The recursive walk takes an explicit fuel argument so that it is a
  structural recursion; `list_files` supplies a fuel that exceeds the
  depth of every directory recorded in the finite map, so the cutoff
  branch is never reached on well-formed inputs, and every theorem below
  is proved for all fuel values or at the fuel `list_files` passes.
-/

/-- Split a character list on a separator character, mirroring Python's
`str.split` with a one-character separator: `"a//b" → ["a", "", "b"]`,
`"" → [""]`. -/
def splitChar (sep : Char) : List Char → List (List Char)
  | [] => [[]]
  | c :: rest =>
    match splitChar sep rest with
    | [] => [[c]]
    | h :: t => if c = sep then [] :: h :: t else (c :: h) :: t

/-- Join character lists with a separator character, mirroring Python's
`sep.join`. -/
def joinChars (sep : Char) : List (List Char) → List Char
  | [] => []
  | [x] => x
  | x :: y :: t => x ++ sep :: joinChars sep (y :: t)

/-- `s.split("/")` on Lean strings. -/
def strSplitSlash (s : String) : List String :=
  (splitChar '/' s.data).map (fun l => String.mk l)

/-- `"/".join(ps)` on Lean strings. -/
def strJoinSlash (ps : List String) : String :=
  String.mk (joinChars '/' (ps.map String.data))

/-- The number of leading slashes `posixpath.normpath` preserves: two
leading slashes are kept as `//` (POSIX), any other run collapses to one,
no leading slash gives zero. -/
def initialSlashes (s : String) : Nat :=
  match s.data with
  | '/' :: '/' :: '/' :: _ => 1
  | '/' :: '/' :: _ => 2
  | '/' :: _ => 1
  | _ => 0

/-- One step of `posixpath.normpath`'s component loop. -/
def normpathStep (slashes : Nat) (acc : List String) (comp : String) : List String :=
  if comp = "" ∨ comp = "." then acc
  else if comp ≠ ".." ∨ (slashes = 0 ∧ acc = []) ∨ acc.getLast? = some ".." then
    acc ++ [comp]
  else if acc ≠ [] then acc.dropLast
  else acc

/-- `posixpath.normpath`, the normalization `os.path.normpath` performs on
POSIX: empty becomes `"."`, `"//"` and `"/./"` collapse, `".."` folds into
its parent where possible. -/
def normpath (p : String) : String :=
  if p = "" then "."
  else
    let slashes := initialSlashes p
    let newComps := (strSplitSlash p).foldl (normpathStep slashes) []
    let res := String.mk (List.replicate slashes '/' ++ (strJoinSlash newComps).data)
    if res = "" then "." else res

/-- `pathlib.PurePosixPath(s).parts`: the nonempty slash-separated pieces,
preceded for an absolute path by its root token (`"/"` or `"//"`). -/
def pathParts (s : String) : List String :=
  let body := (strSplitSlash s).filter (fun c => c ≠ "")
  match initialSlashes s with
  | 0 => body
  | n => String.mk (List.replicate n '/') :: body

/-- `os.path.join(*ps)` for a `parts`-shaped list: a root token ending in a
slash is glued directly onto the remaining components. -/
def joinParts : List String → String
  | [] => ""
  | h :: t =>
    if h.data.getLast? = some '/' then String.mk (h.data ++ (strJoinSlash t).data)
    else strJoinSlash (h :: t)

/-- Insert a string into a list if absent, mirroring `set.add` at the level
of membership. -/
def insertIfAbsent (xs : List String) (x : String) : List String :=
  if x ∈ xs then xs else xs ++ [x]

/-- The joins of the nonempty prefixes of a `parts` list: what the
`for part in Path(norm).parts` loop of `expand_with_ancestors` adds to the
expanded set for one leaf. -/
def ancestorJoins (ps : List String) : List String :=
  (List.range ps.length).map (fun i => joinParts (ps.take (i + 1)))

/-- One leaf's contribution in `expand_with_ancestors`: skip empty strings,
otherwise record the normalized leaf and all its prefix joins. -/
def expandStep (acc : List String × List String) (d : String) : List String × List String :=
  if d = "" then acc
  else
    let norm := normpath d
    (insertIfAbsent acc.1 norm,
     (ancestorJoins (pathParts norm)).foldl insertIfAbsent acc.2)

/-- `expand_with_ancestors` from src/utils/list_files.py: turns a list of
relative directory strings into (leaves, leaves plus all ancestors).  If a
nonempty entry normalizes to `"."` (or `""`) the loop returns two empty
sets; that early return is rendered as a guard since its value does not
depend on the partial accumulator. -/
def expand_with_ancestors (rel_dirs : List String) : List String × List String :=
  if rel_dirs.any (fun d => !(d = "") && (normpath d = "." || normpath d = "")) then
    ([], [])
  else rel_dirs.foldl expandStep ([], [])

/-- The proper-ancestor directories of a leaf string: the joins of the
strict nonempty prefixes of its `parts`. -/
def properAncestors (l : String) : List String :=
  (List.range ((pathParts l).length - 1)).map (fun i => joinParts ((pathParts l).take (i + 1)))

example : normpath "" = "." := by decide
example : normpath "a/b/.." = "a" := by decide
example : normpath "./x//y/" = "x/y" := by decide
example : expand_with_ancestors ["src/app", "tests/unit"] =
    (["src/app", "tests/unit"], ["src", "src/app", "tests", "tests/unit"]) := by decide
example : expand_with_ancestors ["", "a"] = (["a"], ["a"]) := by decide
example : expand_with_ancestors ["a", "."] = ([], []) := by decide
example : pathParts "/a/b" = ["/", "a", "b"] := by decide
example : joinParts ["/", "a", "b"] = "/a/b" := by decide

/-! ## Filesystem model -/

/-- The classification `get_folder_items` computes per entry from
`entry.is_symlink()` / `is_dir` / `is_file`: regular file, regular
directory, symlink to a file, symlink to a directory, broken symlink, or
a special file (socket, FIFO, device). -/
inductive EntryKind where
  | file
  | dir
  | symlinkFile
  | symlinkDir
  | brokenSymlink
  | special
deriving DecidableEq, Repr

/-- One direct child of a directory: its name (a single path component),
its classification, and — when it is a regular file — its text content
(only ever read for `.gitignore`). -/
structure DirEntry where
  name : String
  kind : EntryKind
  content : String
deriving DecidableEq, Repr

/-- A filesystem snapshot: a finite map from an absolute directory path
(component list) to the listing `os.scandir` yields there. -/
abbrev FS := List (List String × List DirEntry)

/-- The listing of the directory at path `p` (empty when `p` is not a
directory of the snapshot; the walker only scans paths its own folder
lists produced, so that case is unreachable from consistent snapshots). -/
def listingOf (fs : FS) (p : List String) : List DirEntry :=
  (((fs.find? (fun kv => kv.1 = p)).map (fun kv => kv.2)).getD [])

/-- `FolderItems` from src/utils/list_files.py. -/
structure FolderItems where
  files : List String
  folders : List String
  fileSymlinks : List String
  folderSymlinks : List String
deriving DecidableEq, Repr

/-- `get_folder_items`: partition a directory's direct children by the
classification above, preserving scan order.  Symlinks are checked first;
a broken symlink is kept with `fileSymlinks`; special files are dropped. -/
def get_folder_items : List DirEntry → FolderItems
  | [] => ⟨[], [], [], []⟩
  | e :: rest =>
    let r := get_folder_items rest
    match e.kind with
    | .symlinkDir => ⟨r.files, r.folders, r.fileSymlinks, e.name :: r.folderSymlinks⟩
    | .symlinkFile => ⟨r.files, r.folders, e.name :: r.fileSymlinks, r.folderSymlinks⟩
    | .brokenSymlink => ⟨r.files, r.folders, e.name :: r.fileSymlinks, r.folderSymlinks⟩
    | .file => ⟨e.name :: r.files, r.folders, r.fileSymlinks, r.folderSymlinks⟩
    | .dir => ⟨r.files, e.name :: r.folders, r.fileSymlinks, r.folderSymlinks⟩
    | .special => r

/-- `(p / ".git").exists()`: some child of `p` is named `.git` and exists
(`Path.exists` follows symlinks, so only a broken symlink fails). -/
def gitExistsAt (fs : FS) (p : List String) : Bool :=
  (listingOf fs p).any (fun e => e.name = ".git" && !(e.kind = EntryKind.brokenSymlink))

/-- The upward `while` loop of `list_files` that locates the repo root:
test `dirpath`, then each parent up to the filesystem root, and return
the first directory containing `.git`. -/
def find_repo_root (fs : FS) (p : List String) : Option (List String) :=
  (((List.range (p.length + 1)).reverse).map (fun n => p.take n)).find?
    (fun q => gitExistsAt fs q)

/-- `is_within(child, parent)`: `child.relative_to(parent)` succeeds, i.e.
`parent` is a component-prefix of `child` (equality included). -/
def is_within (child parentDir : List String) : Bool :=
  parentDir.isPrefixOf child

/-- `.resolve()` of `base / comps` for already-resolved `base`: fold the
components, where `".."` pops and `"."` is skipped (symlink-free model of
path resolution). -/
def resolveParts (base : List String) (comps : List String) : List String :=
  comps.foldl
    (fun acc c => if c = ".." then acc.dropLast else if c = "." then acc else acc ++ [c])
    base

/-- `(cwd_p / p).resolve()` for a path string `p`: an absolute `p` ignores
`cwd`, a relative one is resolved beneath it. -/
def absUnder (cwd : List String) (p : String) : List String :=
  if initialSlashes p > 0 then resolveParts [] ((strSplitSlash p).filter (fun c => c ≠ ""))
  else resolveParts cwd ((strSplitSlash p).filter (fun c => c ≠ ""))

/-! ## Ignore-rule model

`list_files` obtains each directory's matcher from
`gitignore_parser.parse_gitignore_str(text, base_dir)`, an external
dependency whose code is not part of this repository.  The definitions in
this section are therefore modelled from the spec (§4.2 IgnoreCascade and
§6): patterns are evaluated in file order and the last matching pattern
decides, a `!`-pattern being a negation; a pattern without a slash matches
the candidate's basename anywhere below the scope directory, a pattern
with a slash is anchored at the scope directory; lines that fail to parse
contribute no rule, so a malformed file degrades to no local rules. -/

/-- One compiled ignore rule: negation flag and glob pattern. -/
structure IgnoreRule where
  negation : Bool
  pattern : String
deriving DecidableEq, Repr

/-- Strip leading and trailing spaces. -/
def trimChars (cs : List Char) : List Char :=
  ((cs.dropWhile (fun c => c = ' ')).reverse.dropWhile (fun c => c = ' ')).reverse

/-- Modelled from the spec: parse one ignore-file line.  Blank lines,
comment lines and a bare `!` fail to parse and yield no rule. -/
def parseIgnoreLine (line : String) : Option IgnoreRule :=
  match trimChars line.data with
  | [] => none
  | '#' :: _ => none
  | ['!'] => none
  | '!' :: rest => some ⟨true, String.mk rest⟩
  | cs => some ⟨false, String.mk cs⟩

/-- Modelled from the spec: the rule list of an ignore file is the rules
of its lines, unparseable lines dropped. -/
def parseIgnoreRules (text : String) : List IgnoreRule :=
  ((splitChar '\n' text.data).map (fun l => String.mk l)).filterMap parseIgnoreLine

/-- Glob matching with `*` (any run of characters), by fuel on the summed
lengths; the fuel passed by `globMatch` always suffices. -/
def globCharsFuel : Nat → List Char → List Char → Bool
  | 0, _, _ => false
  | fuel + 1, pat, s =>
    match pat with
    | [] => s.isEmpty
    | c :: ps =>
      if c = '*' then
        globCharsFuel fuel ps s ||
          (match s with
           | [] => false
           | _ :: ss => globCharsFuel fuel (c :: ps) ss)
      else
        match s with
        | [] => false
        | a :: ss => a = c && globCharsFuel fuel ps ss

/-- Glob-match a pattern against one path component. -/
def globMatch (pat s : String) : Bool :=
  globCharsFuel (pat.data.length + s.data.length + 1) pat.data s.data

/-- Modelled from the spec: does a rule match a candidate path given by
its components relative to the rule's scope directory?  A slashless
pattern matches the basename at any depth; a pattern with a slash is
anchored and matches the candidate or anything below the matched entry. -/
def ruleMatches (r : IgnoreRule) (rel : List String) : Bool :=
  if r.pattern.data.contains '/' then
    let pcs := (strSplitSlash r.pattern).filter (fun c => c ≠ "")
    decide (pcs.length ≤ rel.length) && (pcs.zip rel).all (fun pc => globMatch pc.1 pc.2)
  else
    match rel.getLast? with
    | some base => globMatch r.pattern base
    | none => false

/-- Modelled from the spec: the verdict of one ignore file on a relative
candidate — the last matching pattern in file order decides, a negation
un-ignores. -/
def handleNegation (rules : List IgnoreRule) (rel : List String) : Bool :=
  match rules.reverse.find? (fun r => ruleMatches r rel) with
  | some r => !r.negation
  | none => false

/-- Modelled from the spec: the matcher `parse_gitignore_str(text,
base_dir)` returns, as a predicate on absolute candidate paths.  Only
candidates strictly below the scope directory can match. -/
def gitignoreMatcher (text : String) (base : List String) (cand : List String) : Bool :=
  if base.isPrefixOf cand ∧ cand ≠ base then
    handleNegation (parseIgnoreRules text) (cand.drop base.length)
  else false

/-- The text of the `.gitignore` entry of a listing, if any. -/
def ignoreTextOf (entries : List DirEntry) : String :=
  (((entries.find? (fun e => e.name = ".gitignore")).map (fun e => e.content)).getD "")

example : parseIgnoreRules "*.log\n!debug.log" =
    [⟨false, "*.log"⟩, ⟨true, "debug.log"⟩] := by decide
example : globMatch "*.log" "app.log" = true := by decide
example : globMatch "*.log" "logs" = false := by decide
example : gitignoreMatcher "*.log" ["repo"] ["repo", "logs", "debug.log"] = true := by decide
example : gitignoreMatcher "!debug.log" ["repo", "logs"] ["repo", "logs", "debug.log"] = false := by decide

/-! ## The scoped walker (`list_files`) -/

/-- The values `list_files` computes before recursing, which its nested
helpers close over: the repo flag, the located repo root, the resolved
target directory, and the absolute leaf/expanded inclusion sets. -/
structure WalkCfg where
  repo : Bool
  repo_root : Option (List String)
  dirpath : List String
  leaf_abs : List (List String)
  expanded_abs : List (List String)

/-- `in_expanded`: no restriction when the expanded set is empty, else the
path must lie within some expanded member. -/
def in_expanded (cfg : WalkCfg) (p : List String) : Bool :=
  cfg.expanded_abs.isEmpty || cfg.expanded_abs.any (fun inc => is_within p inc)

/-- `in_leaf`: no restriction when the leaf set is empty, else the path
must lie within some leaf. -/
def in_leaf (cfg : WalkCfg) (p : List String) : Bool :=
  cfg.leaf_abs.isEmpty || cfg.leaf_abs.any (fun inc => is_within p inc)

/-- `should_descend`: in repo mode stay on the path toward or below the
target directory; with inclusions, keep to ancestors or descendants of
expanded members. -/
def should_descend (cfg : WalkCfg) (next_dir : List String) : Bool :=
  let ok_repo :=
    if cfg.repo && cfg.repo_root.isSome then
      is_within cfg.dirpath next_dir || is_within next_dir cfg.dirpath
    else true
  let ok_included :=
    if cfg.expanded_abs.isEmpty then true
    else cfg.expanded_abs.any (fun inc => is_within inc next_dir || is_within next_dir inc)
  ok_repo && ok_included

/-- `default_reject_fn`: permanently reject anything named `.git`, and
anything outside the expanded inclusion set. -/
def default_reject_fn (cfg : WalkCfg) (p : List String) : Bool :=
  if p.getLast? = some ".git" then true
  else if !(in_expanded cfg p) then true
  else false

/-- The matcher composed at one directory: the local `.gitignore`'s
matcher when the scan found that file, else `default_reject_fn`. -/
def particularOf (fs : FS) (cfg : WalkCfg) (current_dirpath : List String) :
    List String → Bool :=
  if ".gitignore" ∈ (get_folder_items (listingOf fs current_dirpath)).files then
    gitignoreMatcher (ignoreTextOf (listingOf fs current_dirpath)) current_dirpath
  else default_reject_fn cfg

/-- The body of the `for file in files` loop: accept the file when the
composed predicate does not reject it, it lies within the target subtree
whenever repo mode found a root, and it passes the leaf-set check. -/
def fileStep (cfg : WalkCfg) (reject_fn : List String → Bool)
    (current_dirpath : List String) (file : String) : Option (List String) :=
  let abs_file := current_dirpath ++ [file]
  if !(reject_fn abs_file) &&
      ((!(cfg.repo && cfg.repo_root.isSome) || is_within abs_file cfg.dirpath) &&
        in_leaf cfg abs_file)
  then some abs_file else none

/-- The `recursion` helper of `list_files`, instrumented to also return
the list of directories it scanned.  The first component collects the
accepted absolute file paths in traversal order (a directory's files
first, then each eligible subdirectory in scan order); the second records
every directory passed to `get_folder_items`. -/
def recursion (fs : FS) (cfg : WalkCfg) :
    Nat → List String → (List String → Bool) → List (List String) × List (List String)
  | 0, _, _ => ([], [])
  | fuel + 1, current_dirpath, last_fn =>
    let folder_items := get_folder_items (listingOf fs current_dirpath)
    let reject_fn := fun f => last_fn f || particularOf fs cfg current_dirpath f
    let accepted := folder_items.files.filterMap (fileStep cfg reject_fn current_dirpath)
    let subs := folder_items.folders.map (fun folder =>
      let next_dir := current_dirpath ++ [folder]
      if reject_fn next_dir then (([], []) : List (List String) × List (List String))
      else if should_descend cfg next_dir then recursion fs cfg fuel next_dir reject_fn
      else ([], []))
    (accepted ++ (subs.map (fun r => r.1)).flatten,
     current_dirpath :: (subs.map (fun r => r.2)).flatten)

/-- The leaf inclusion set in absolute form, as `list_files` computes it:
normalize the caller-given strings, expand, resolve beneath the working
directory. -/
def leaf_abs_of (cwd : List String) (included_dirs : List String) : List (List String) :=
  ((expand_with_ancestors (included_dirs.map normpath)).1).map (absUnder cwd)

/-- The ancestor-expanded inclusion set in absolute form. -/
def expanded_abs_of (cwd : List String) (included_dirs : List String) : List (List String) :=
  ((expand_with_ancestors (included_dirs.map normpath)).2).map (absUnder cwd)

/-- The repo root `list_files` locates (only searched for in repo mode). -/
def repo_root_of (fs : FS) (dirpath : List String) (repo : Bool) : Option (List String) :=
  if repo then find_repo_root fs dirpath else none

/-- `search_root`: the located repo root in repo mode when one exists,
else the target directory. -/
def search_root_of (fs : FS) (dirpath : List String) (repo : Bool) : List String :=
  (repo_root_of fs dirpath repo).getD dirpath

/-- The closure environment of one `list_files` call. -/
def walkCfgOf (fs : FS) (cwd dirpath : List String) (repo : Bool)
    (included_dirs : List String) : WalkCfg :=
  ⟨repo, repo_root_of fs dirpath repo, dirpath,
   leaf_abs_of cwd included_dirs, expanded_abs_of cwd included_dirs⟩

/-- A fuel bound exceeding the depth of every directory of the snapshot,
so the walk's cutoff branch is never taken: scanning only happens at keys
of the map, whose component length the bound dominates. -/
def fuelOf (fs : FS) : Nat :=
  fs.foldl (fun m kv => max m kv.1.length) 0 + 2

/-- The body of `list_files` up to (but not including) the final
relativization: early-exit with an empty result when the expanded set is
nonempty yet disjoint from the search root's ancestor/descendant line,
else recurse from the search root.  Returns (accepted absolute paths,
scanned directories). -/
def list_files_core (fs : FS) (cwd dirpath : List String) (repo : Bool)
    (included_dirs : List String) : List (List String) × List (List String) :=
  let cfg := walkCfgOf fs cwd dirpath repo included_dirs
  let search_root := search_root_of fs dirpath repo
  if cfg.expanded_abs ≠ [] ∧
      !(cfg.expanded_abs.any (fun inc =>
        is_within inc search_root || is_within search_root inc)) then
    ([], [])
  else recursion fs cfg (fuelOf fs) search_root (default_reject_fn cfg)

/-- The length of the longest common component-prefix of two paths. -/
def commonPrefixLen : List String → List String → Nat
  | a :: as, b :: bs => if a = b then commonPrefixLen as bs + 1 else 0
  | _, _ => 0

/-- `os.path.relpath(f, start)` on component paths: climb with `".."` for
the part of `start` outside the common prefix, then descend with the rest
of `f`; two equal paths give `["."]`. -/
def relpathParts (f start : List String) : List String :=
  let common := commonPrefixLen f start
  let r := List.replicate (start.length - common) ".." ++ f.drop common
  if r = [] then ["."] else r

/-- `list_files(dirpath, repo, included_dirs)`: the accepted files,
reported relative to the target directory.  (`os.path.normpath` and the
backslash replacement of the source are identities on component paths.) -/
def list_files (fs : FS) (cwd dirpath : List String) (repo : Bool)
    (included_dirs : List String) : List (List String) :=
  ((list_files_core fs cwd dirpath repo included_dirs).1).map
    (fun f => relpathParts f dirpath)

/-! ### The negation-precedence tree of claim C1 -/

/-- A regular file entry. -/
def fileE (name content : String) : DirEntry := ⟨name, EntryKind.file, content⟩

/-- A regular directory entry. -/
def dirE (name : String) : DirEntry := ⟨name, EntryKind.dir, ""⟩

/-- The tree of claim C1: the target directory's `.gitignore` holds
`*.log`, and `logs/.gitignore` holds the negation `!debug.log`. -/
def fsC1 : FS :=
  [([], [dirE "repo"]),
   (["repo"], [fileE ".gitignore" "*.log", fileE "app.log" "", fileE "keep.txt" "",
               dirE "logs"]),
   (["repo", "logs"], [fileE ".gitignore" "!debug.log", fileE "debug.log" "",
                       fileE "trace.log" ""])]

example : list_files fsC1 ["repo"] ["repo"] false [] =
    [[".gitignore"], ["keep.txt"], ["logs", ".gitignore"]] := by decide

/-! ## Path forests (src/utils/path_trees.py) -/

/-- `Node`: a name, an insertion-ordered mapping of child name to child
node (rendered as an association list with unique keys, as Python dicts
preserve insertion order), and the terminal flag. -/
inductive Node where
  | mk (name : String) (children : List (String × Node)) (terminal : Bool)

/-- `children.get(key)` on the association-list rendering of a dict. -/
def lookupChild : List (String × Node) → String → Option Node
  | [], _ => none
  | (k, v) :: rest, key => if k = key then some v else lookupChild rest key

/-- In-place update of an existing dict key. -/
def replaceChild : List (String × Node) → String → Node → List (String × Node)
  | [], _, _ => []
  | (k, v) :: rest, key, n =>
    if k = key then (k, n) :: rest else (k, v) :: replaceChild rest key n

/-- `Node.add(segments)`: mark the node terminal when the segments are
exhausted, else insert or reuse the child for the head segment and add
the tail there.  A freshly created child is appended at the end of the
dict, matching insertion order. -/
def Node.add : Node → List String → Node
  | .mk n cs _t, [] => .mk n cs true
  | .mk n cs t, head :: tail =>
    match lookupChild cs head with
    | some child => .mk n (replaceChild cs head (Node.add child tail)) t
    | none => .mk n (cs ++ [(head, Node.add (.mk head [] false) tail)]) t

/-- Python's `str.split(sep)` for a nonempty separator of any length, by
fuel on the scanned characters (always sufficient at the fuel
`strSplit` passes). -/
def splitSubFuel (sep : List Char) : Nat → List Char → List (List Char)
  | 0, cs => [cs]
  | fuel + 1, cs =>
    match cs with
    | [] => [[]]
    | c :: rest =>
      if sep ≠ [] ∧ sep.isPrefixOf (c :: rest) then
        [] :: splitSubFuel sep fuel ((c :: rest).drop sep.length)
      else
        match splitSubFuel sep fuel rest with
        | [] => [[c]]
        | h :: t => (c :: h) :: t

/-- `p.split(delimiter)` on strings. -/
def strSplit (p delimiter : String) : List String :=
  (splitSubFuel delimiter.data (p.data.length + 1) p.data).map (fun l => String.mk l)

/-- `default_split(p, delimiter)` from src/utils/path_trees.py for string
inputs: `("", [])` for the empty path, `(delimiter, segments)` for an
absolute path (one leading delimiter stripped), else the first nonempty
token and the rest. -/
def default_split (p delimiter : String) : String × List String :=
  if p = "" then ("", [])
  else if delimiter.data.isPrefixOf p.data then
    let body := String.mk (p.data.drop delimiter.data.length)
    (delimiter, (strSplit body delimiter).filter (fun s => s ≠ ""))
  else
    match (strSplit p delimiter).filter (fun s => s ≠ "") with
    | [] => ("", [])
    | s :: rest => (s, rest)

/-- Python's string comparison: lexicographic on code points. -/
def lexLeChars : List Char → List Char → Bool
  | [], _ => true
  | _ :: _, [] => false
  | a :: as, b :: bs => if a = b then lexLeChars as bs else decide (a < b)

/-- `a <= b` on strings, as `sorted` compares keys. -/
def strLe (a b : String) : Bool :=
  lexLeChars a.data b.data

/-- One path's insertion into the root dict of `paths_to_forest`. -/
def forestStep (delimiter : String) (roots : List (String × Node)) (p : String) :
    List (String × Node) :=
  let rl := (default_split p delimiter).1
  let segs := (default_split p delimiter).2
  match lookupChild roots rl with
  | some n => replaceChild roots rl (Node.add n segs)
  | none =>
    roots ++ [(rl, Node.add (.mk (if rl = "" then "<root>" else rl) [] false) segs)]

/-- `paths_to_forest(paths, delimiter=delimiter)` with the default
splitter: group paths by root label, then return the root nodes sorted by
root label. -/
def paths_to_forest (paths : List String) (delimiter : String) : List Node :=
  let roots := paths.foldl (forestStep delimiter) []
  ((roots.insertionSort (fun a b => strLe a.1 b.1 = true)).map (fun kv => kv.2))

mutual

/-- The lines of `render`'s depth-first printer: the node's own line (a
trailing `:` marks a node with children), then the lines of its children
in lexicographic name order.  Children are rendered first and their
rendered blocks then ordered by name, which agrees with the source's
sorted traversal since a child's rendering does not depend on its
siblings. -/
def renderLines : Node → Nat → Nat → List String
  | .mk name cs _t, indent, depth =>
    (String.mk (List.replicate (depth * indent) ' ') ++ name ++
        (if cs.isEmpty then "" else ":")) ::
      ((renderChildren cs indent (depth + 1)).insertionSort
          (fun a b => strLe a.1 b.1 = true)).flatMap (fun kv => kv.2)

/-- Helper of `renderLines`: render each child, keyed by its name. -/
def renderChildren : List (String × Node) → Nat → Nat → List (String × List String)
  | [], _, _ => []
  | (k, c) :: rest, indent, depth =>
    (k, renderLines c indent depth) :: renderChildren rest indent depth

end

/-- `render(node, indent=4)`: the joined lines. -/
def render (node : Node) : String :=
  String.mk (joinChars '\n' ((renderLines node 4 0).map String.data))

example : default_split "a/b" "/" = ("a", ["b"]) := by decide

/-! ## Tri-state flag resolution (src/utils/cli_ctx_helpers.py) -/

/-- `resolve_prop`: raise a usage error (modelled as `Except.error ()`)
when both levels are explicitly set and disagree; otherwise prefer the
local value, then the global value, then the default. -/
def resolve_prop {α : Type} [DecidableEq α]
    (local_value global_value : Option α) (default : α) : Except Unit α :=
  if global_value ≠ none ∧ local_value ≠ none ∧ global_value ≠ local_value then
    Except.error ()
  else
    match local_value with
    | some v => Except.ok v
    | none =>
      match global_value with
      | some g => Except.ok g
      | none => Except.ok default

/-- `resolve_bool_flag`: the tri-state boolean instance of `resolve_prop`
(the labels only affect the error message, which is not modelled). -/
def resolve_bool_flag (local_value global_value : Option Bool) (default : Bool) :
    Except Unit Bool :=
  resolve_prop local_value global_value default

/-- The behaviour claim C10 describes, written as a case split: a conflict
of two explicit, differing values errors; otherwise the local value wins,
then the global one, then the default. -/
def resolve_bool_flag_described (local_value global_value : Option Bool)
    (default : Bool) : Except Unit Bool :=
  match local_value, global_value with
  | some l, some g => if g = l then Except.ok l else Except.error ()
  | some l, none => Except.ok l
  | none, some g => Except.ok g
  | none, none => Except.ok default

instance : DecidableEq (Except Unit Bool) := fun a b =>
  match a, b with
  | .error (), .error () => isTrue rfl
  | .ok x, .ok y =>
    if h : x = y then isTrue (by rw [h]) else isFalse (fun c => h (by injection c))
  | .error (), .ok _ => isFalse (fun c => Except.noConfusion c)
  | .ok _, .error () => isFalse (fun c => Except.noConfusion c)

example : resolve_bool_flag (some true) (some false) true = Except.error () := by decide
example : resolve_bool_flag none (some false) true = Except.ok false := by decide

/-- Replace the content of the `.gitignore` entries of the directory at
`d` with `newText`, leaving every name, kind and other directory
untouched: the surgery used to state that a rule file's content is
behaviourally inert. -/
def setIgnoreText (fs : FS) (d : List String) (newText : String) : FS :=
  fs.map (fun kv =>
    if kv.1 = d then
      (kv.1, kv.2.map (fun e =>
        if e.name = ".gitignore" then ⟨e.name, e.kind, newText⟩ else e))
    else kv)

/-- A one-file tree used to instantiate universally quantified theorems. -/
def fsSmall : FS := [([], [fileE "a.txt" ""])]

/-- A tree with a file, a file symlink and an empty directory. -/
def fsSym : FS :=
  [([], [fileE "a.txt" "", ⟨"s", EntryKind.symlinkFile, ""⟩, dirE "d"]), (["d"], [])]

/-- A tree holding the single file `x/y/f.txt`. -/
def fsXY : FS :=
  [([], [dirE "x"]), (["x"], [dirE "y"]), (["x", "y"], [fileE "f.txt" ""])]

/-- A tree whose root ignore file consists of one malformed line. -/
def fsMal : FS := [([], [fileE ".gitignore" "!", fileE "a.txt" ""])]

/-! # Theorems -/

/-- C1: the claim expects `!debug.log` in `logs/.gitignore` to resurrect
`logs/debug.log` against the root rule `*.log`.  On the code it does not:
the walker composes the inherited predicate with each directory's matcher
by disjunction (`last_fn(f) or particular_reject_fn(f)`), so an ancestor
rejection is final.  On the C1 tree the walk returns exactly the two
`.gitignore` files and `keep.txt`; `logs/debug.log` is absent, while the
other `*.log` files are (as claimed) excluded. -/
theorem c1_deeper_negation_does_not_resurrect :
    list_files fsC1 ["repo"] ["repo"] false [] =
      [[".gitignore"], ["keep.txt"], ["logs", ".gitignore"]] ∧
    ["logs", "debug.log"] ∉ list_files fsC1 ["repo"] ["repo"] false [] := by
  decide

/-- C8: `get_folder_items` partitions a directory's children into the
four name lists by classification: regular files, regular directories,
file symlinks together with broken symlinks (a broken symlink lands in
`fileSymlinks` rather than failing), and directory symlinks; special
entries (devices, sockets, FIFOs) appear in none of the four lists. -/
theorem c8_folder_scanner_partition (es : List DirEntry) :
    (get_folder_items es).files =
      (es.filter (fun e => decide (e.kind = EntryKind.file))).map (fun e => e.name) ∧
    (get_folder_items es).folders =
      (es.filter (fun e => decide (e.kind = EntryKind.dir))).map (fun e => e.name) ∧
    (get_folder_items es).fileSymlinks =
      (es.filter (fun e =>
        decide (e.kind = EntryKind.symlinkFile ∨ e.kind = EntryKind.brokenSymlink))).map
        (fun e => e.name) ∧
    (get_folder_items es).folderSymlinks =
      (es.filter (fun e => decide (e.kind = EntryKind.symlinkDir))).map (fun e => e.name) := by
  induction es with
  | nil => exact ⟨rfl, rfl, rfl, rfl⟩
  | cons e rest ih =>
    obtain ⟨h1, h2, h3, h4⟩ := ih
    cases e with
    | mk name kind content =>
      cases kind <;>
        refine ⟨?_, ?_, ?_, ?_⟩ <;>
          simp [get_folder_items, h1, h2, h3, h4]

/-- C9: `paths_to_forest ["a/b", "a/c", "d"] "/"` yields exactly the root
`"a"` with terminal leaf children `"b"` and `"c"` and the separate
terminal leaf root `"d"`, with `"a"` ordered before `"d"`; rendering
gives `"a"` the trailing `:` marker for having children while `"b"`,
`"c"` and `"d"` get none. -/
theorem c9_forest_of_three_paths :
    paths_to_forest ["a/b", "a/c", "d"] "/" =
      [Node.mk "a" [("b", Node.mk "b" [] true), ("c", Node.mk "c" [] true)] false,
       Node.mk "d" [] true] ∧
    render (Node.mk "a" [("b", Node.mk "b" [] true), ("c", Node.mk "c" [] true)] false) =
      "a:\n    b\n    c" ∧
    render (Node.mk "d" [] true) = "d" := by
  exact ⟨rfl, rfl, rfl⟩

/-- C10: the tri-state boolean flag resolver errors exactly when both the
global and local values are explicitly set and differ; otherwise it
returns the local value when set, else the global value when set, else
the default — so agreeing explicit values are no conflict and a single
explicit level beats the default. -/
theorem c10_tristate_flag_resolution :
    ∀ (local_value global_value : Option Bool) (defaultValue : Bool),
      resolve_bool_flag local_value global_value defaultValue =
        resolve_bool_flag_described local_value global_value defaultValue := by
  decide

/-- C5: when the expanded inclusion set is nonempty and none of its
members is an ancestor or a descendant of (or equal to) the resolved
search root, the walk returns the empty sequence immediately and scans no
directory at all. -/
theorem c5_disjoint_inclusion_early_exit (fs : FS) (cwd dirpath : List String)
    (repo : Bool) (included_dirs : List String)
    (hne : expanded_abs_of cwd included_dirs ≠ [])
    (hdisj : ∀ inc ∈ expanded_abs_of cwd included_dirs,
      is_within inc (search_root_of fs dirpath repo) = false ∧
      is_within (search_root_of fs dirpath repo) inc = false) :
    list_files_core fs cwd dirpath repo included_dirs = ([], []) ∧
    list_files fs cwd dirpath repo included_dirs = [] := by
  have hany : ((walkCfgOf fs cwd dirpath repo included_dirs).expanded_abs.any
      (fun inc => is_within inc (search_root_of fs dirpath repo) ||
        is_within (search_root_of fs dirpath repo) inc)) = false := by
    rw [List.any_eq_false]
    intro inc hinc
    obtain ⟨h1, h2⟩ := hdisj inc hinc
    rw [h1, h2]
    simp
  have hcore : list_files_core fs cwd dirpath repo included_dirs = ([], []) := by
    simp only [list_files_core]
    split
    · rfl
    · rename_i hcond
      exact absurd ⟨hne, by rw [hany]; rfl⟩ hcond
  refine ⟨hcore, ?_⟩
  unfold list_files
  rw [hcore]
  rfl

/-- Witness for C5: `["b"]` is disjoint from the search root `["a"]`, so
the walk over the one-file tree returns nothing and scans nothing. -/
theorem c5_disjoint_inclusion_early_exit_witness :
    (expanded_abs_of [] ["b"] ≠ [] ∧
      list_files_core fsSmall [] ["a"] false ["b"] = ([], []) ∧
      list_files fsSmall [] ["a"] false ["b"] = []) :=
  ⟨by decide,
   c5_disjoint_inclusion_early_exit fsSmall [] ["a"] false ["b"] (by decide) (by decide)⟩

/-- Resolution appends components that are neither `".."` nor `"."`. -/
theorem resolveParts_plain (cs : List String) :
    ∀ base : List String, (∀ c ∈ cs, c ≠ ".." ∧ c ≠ ".") →
      resolveParts base cs = base ++ cs := by
  induction cs with
  | nil => intro base _h; simp [resolveParts]
  | cons c rest ih =>
    intro base h
    obtain ⟨h1, h2⟩ := h c (List.mem_cons_self c rest)
    have hrest : ∀ x ∈ rest, x ≠ ".." ∧ x ≠ "." :=
      fun x hx => h x (List.mem_cons_of_mem c hx)
    unfold resolveParts at ih ⊢
    simp only [List.foldl_cons]
    rw [if_neg h1, if_neg h2, ih (base ++ [c]) hrest]
    simp

/-- The common prefix of `b ++ t` and `b` is all of `b`. -/
theorem commonPrefixLen_append (b t : List String) :
    commonPrefixLen (b ++ t) b = b.length := by
  induction b with
  | nil => cases t <;> rfl
  | cons a as ih => simp [commonPrefixLen, ih]

/-- Relativizing `b ++ t` against `b` returns `t` when `t` is nonempty. -/
theorem relpathParts_append (b t : List String) (hne : t ≠ []) :
    relpathParts (b ++ t) b = t := by
  unfold relpathParts
  rw [commonPrefixLen_append]
  simp [List.drop_left, hne]

/-- What acceptance of one file means: the accepted path extends the
current directory by the file's name, the composed predicate does not
reject it, in repo-with-root mode it lies within the target subtree, and
it passes the leaf check. -/
theorem fileStep_some (cfg : WalkCfg) (rej : List String → Bool) (cur : List String)
    (file : String) (q : List String)
    (h : fileStep cfg rej cur file = some q) :
    q = cur ++ [file] ∧ rej q = false ∧
      ((cfg.repo && cfg.repo_root.isSome) = true → is_within q cfg.dirpath = true) ∧
      in_leaf cfg q = true := by
  simp only [fileStep] at h
  split at h
  · rename_i hcond
    injection h with h2
    subst h2
    simp only [Bool.and_eq_true, Bool.not_eq_true', Bool.or_eq_true] at hcond
    obtain ⟨h1, h3, h4⟩ := hcond
    refine ⟨rfl, h1, ?_, h4⟩
    intro hrepo
    rcases h3 with h3 | h3
    · rw [hrepo] at h3; simp at h3
    · exact h3
  · exact absurd h (by simp)

/-- Case analysis for membership in the accepted-files component of one
recursion level: the path was accepted among the current directory's
files, or it came out of the recursive call on a subdirectory that the
composed predicate kept and `should_descend` approved. -/
theorem mem_recursion_fst (fs : FS) (cfg : WalkCfg) (fuel : Nat) (current : List String)
    (lf : List String → Bool) (q : List String)
    (hq : q ∈ (recursion fs cfg (fuel + 1) current lf).1) :
    (∃ file ∈ (get_folder_items (listingOf fs current)).files,
      fileStep cfg (fun f => lf f || particularOf fs cfg current f) current file = some q) ∨
    (∃ folder ∈ (get_folder_items (listingOf fs current)).folders,
      (lf (current ++ [folder]) || particularOf fs cfg current (current ++ [folder])) = false ∧
      should_descend cfg (current ++ [folder]) = true ∧
      q ∈ (recursion fs cfg fuel (current ++ [folder])
            (fun f => lf f || particularOf fs cfg current f)).1) := by
  simp only [recursion] at hq
  rw [List.mem_append] at hq
  rcases hq with hq | hq
  · rw [List.mem_filterMap] at hq
    obtain ⟨file, hfile, heq⟩ := hq
    exact Or.inl ⟨file, hfile, heq⟩
  · rw [List.mem_flatten] at hq
    obtain ⟨l, hl, hql⟩ := hq
    rw [List.mem_map] at hl
    obtain ⟨r, hr, hrl⟩ := hl
    rw [List.mem_map] at hr
    obtain ⟨folder, hfolder, hfr⟩ := hr
    subst hrl
    subst hfr
    refine Or.inr ⟨folder, hfolder, ?_⟩
    split at hql
    · exact absurd hql (List.not_mem_nil q)
    · rename_i hrej
      split at hql
      · rename_i hdesc
        exact ⟨Bool.not_eq_true _ ▸ Bool.of_not_eq_true hrej, hdesc, hql⟩
      · exact absurd hql (List.not_mem_nil q)

/-- Every file the recursion accepts passes `in_leaf`: the leaf-set check
is part of the acceptance condition at every level. -/
theorem recursion_accept_in_leaf (fs : FS) (cfg : WalkCfg) :
    ∀ (fuel : Nat) (current : List String) (lf : List String → Bool),
      ∀ q ∈ (recursion fs cfg fuel current lf).1, in_leaf cfg q = true := by
  intro fuel
  induction fuel with
  | zero => intro current lf q hq; simp [recursion] at hq
  | succ n ih =>
    intro current lf q hq
    rcases mem_recursion_fst fs cfg n current lf q hq with ⟨file, _hfile, heq⟩ | h
    · exact (fileStep_some _ _ _ _ _ heq).2.2.2
    · obtain ⟨folder, _hfolder, _hrej, _hdesc, hmem⟩ := h
      exact ih _ _ q hmem

/-- C4: with `includedPaths = ["x/y"]` (target directory = working
directory), every returned path equals `x/y` or extends it: the component
sequence `["x", "y"]` is a prefix of every result, whatever the tree and
repo setting. -/
theorem c4_inclusion_containment (fs : FS) (cwd : List String) (repo : Bool) :
    ∀ r ∈ list_files fs cwd cwd repo ["x/y"], ["x", "y"] <+: r := by
  intro r hr
  unfold list_files at hr
  rw [List.mem_map] at hr
  obtain ⟨q, hq, hrq⟩ := hr
  have hinleaf : in_leaf (walkCfgOf fs cwd cwd repo ["x/y"]) q = true := by
    simp only [list_files_core] at hq
    split at hq
    · simp at hq
    · exact recursion_accept_in_leaf _ _ _ _ _ q hq
  have hleafset : (walkCfgOf fs cwd cwd repo ["x/y"]).leaf_abs = [cwd ++ ["x", "y"]] := by
    show leaf_abs_of cwd ["x/y"] = [cwd ++ ["x", "y"]]
    have h0 : (expand_with_ancestors (["x/y"].map normpath)).1 = ["x/y"] := by decide
    unfold leaf_abs_of
    rw [h0]
    have h2 : (strSplitSlash "x/y").filter (fun c => c ≠ "") = ["x", "y"] := by decide
    have h1 : absUnder cwd "x/y" = cwd ++ ["x", "y"] := by
      unfold absUnder
      rw [if_neg (by decide), h2, resolveParts_plain _ _ (by decide)]
    simp [h1]
  unfold in_leaf at hinleaf
  rw [hleafset] at hinleaf
  simp only [List.isEmpty_cons, List.any_cons, List.any_nil, Bool.or_false,
    Bool.false_or, is_within] at hinleaf
  have hpre : (cwd ++ ["x", "y"]) <+: q := by
    exact List.isPrefixOf_iff_prefix.mp hinleaf
  obtain ⟨s, hs⟩ := hpre
  subst hs
  rw [List.append_assoc] at hrq
  rw [relpathParts_append _ _ (by simp)] at hrq
  subst hrq
  exact List.prefix_append _ _

/-- Witness for C4: the walk over the `x/y/f.txt` tree with inclusion
`["x/y"]` returns that file, and the theorem bounds it below `x/y`. -/
theorem c4_inclusion_containment_witness :
    (["x", "y", "f.txt"] ∈ list_files fsXY [] [] false ["x/y"]) ∧
      ["x", "y"] <+: ["x", "y", "f.txt"] :=
  ⟨by decide,
   c4_inclusion_containment fsXY [] false ["x", "y", "f.txt"] (by decide)⟩

/-- Case analysis for membership in the scanned-directories component of
one recursion level: the current directory itself, or a directory scanned
by the recursive call on a kept, approved subdirectory. -/
theorem mem_recursion_snd (fs : FS) (cfg : WalkCfg) (fuel : Nat) (current : List String)
    (lf : List String → Bool) (d : List String)
    (hd : d ∈ (recursion fs cfg (fuel + 1) current lf).2) :
    d = current ∨
    (∃ folder ∈ (get_folder_items (listingOf fs current)).folders,
      (lf (current ++ [folder]) || particularOf fs cfg current (current ++ [folder])) = false ∧
      should_descend cfg (current ++ [folder]) = true ∧
      d ∈ (recursion fs cfg fuel (current ++ [folder])
            (fun f => lf f || particularOf fs cfg current f)).2) := by
  simp only [recursion] at hd
  rw [List.mem_cons] at hd
  rcases hd with hd | hd
  · exact Or.inl hd
  · rw [List.mem_flatten] at hd
    obtain ⟨l, hl, hdl⟩ := hd
    rw [List.mem_map] at hl
    obtain ⟨r, hr, hrl⟩ := hl
    rw [List.mem_map] at hr
    obtain ⟨folder, hfolder, hfr⟩ := hr
    subst hrl
    subst hfr
    refine Or.inr ⟨folder, hfolder, ?_⟩
    split at hdl
    · exact absurd hdl (List.not_mem_nil d)
    · rename_i hrej
      split at hdl
      · rename_i hdesc
        exact ⟨Bool.not_eq_true _ ▸ Bool.of_not_eq_true hrej, hdesc, hdl⟩
      · exact absurd hdl (List.not_mem_nil d)

/-- A path the default predicate does not reject is not named `.git`. -/
theorem default_reject_false_last (cfg : WalkCfg) (p : List String)
    (h : default_reject_fn cfg p = false) : p.getLast? ≠ some ".git" := by
  intro hname
  unfold default_reject_fn at h
  rw [if_pos hname] at h
  exact absurd h (by simp)

/-- Extending the composed predicate with a local matcher preserves
domination of the default predicate. -/
theorem dominates_step (fs : FS) (cfg : WalkCfg) (current : List String)
    (lf : List String → Bool)
    (hdom : ∀ p, default_reject_fn cfg p = true → lf p = true) :
    ∀ p, default_reject_fn cfg p = true →
      (lf p || particularOf fs cfg current p) = true := by
  intro p hp
  rw [hdom p hp]
  rfl

/-- Prefix cancellation on the left. -/
theorem prefix_cancel_left {α : Type} (l t s : List α) (h : l ++ t <+: l ++ s) :
    t <+: s := by
  obtain ⟨u, hu⟩ := h
  rw [List.append_assoc] at hu
  exact ⟨u, List.append_cancel_left hu⟩

/-- The located repo root is an ancestor (prefix) of the directory the
upward search started from. -/
theorem find_repo_root_prefix (fs : FS) (p rr : List String)
    (h : find_repo_root fs p = some rr) : rr <+: p := by
  unfold find_repo_root at h
  have hmem := List.mem_of_find?_eq_some h
  rw [List.mem_map] at hmem
  obtain ⟨n, _hn, hrr⟩ := hmem
  subst hrr
  exact List.take_prefix n p

/-- The structural walk invariant behind claim C3: provided the inherited
predicate dominates the default one, every accepted path extends the
current directory by a nonempty `.git`-free suffix (lying inside the
target subtree whenever repo mode found a root) and every scanned
directory extends it by a `.git`-free suffix. -/
theorem recursion_no_git (fs : FS) (cfg : WalkCfg) :
    ∀ (fuel : Nat) (current : List String) (lf : List String → Bool),
      (∀ p, default_reject_fn cfg p = true → lf p = true) →
      (∀ q ∈ (recursion fs cfg fuel current lf).1,
        ∃ s, q = current ++ s ∧ s ≠ [] ∧ ".git" ∉ s ∧
          ((cfg.repo && cfg.repo_root.isSome) = true → is_within q cfg.dirpath = true)) ∧
      (∀ d ∈ (recursion fs cfg fuel current lf).2, ∃ s, d = current ++ s ∧ ".git" ∉ s) := by
  intro fuel
  induction fuel with
  | zero =>
    intro current lf _hdom
    constructor
    · intro q hq; simp [recursion] at hq
    · intro d hd; simp [recursion] at hd
  | succ n ih =>
    intro current lf hdom
    constructor
    · intro q hq
      rcases mem_recursion_fst fs cfg n current lf q hq with ⟨file, _hfile, heq⟩ | h
      · obtain ⟨hq1, hq2, hq3, _hq4⟩ := fileStep_some _ _ _ _ _ heq
        have hlf : lf q = false := by
          rcases Bool.or_eq_false_iff.mp hq2 with ⟨h1, _⟩
          exact h1
        have hdef : default_reject_fn cfg q = false := by
          cases hdr : default_reject_fn cfg q
          · rfl
          · rw [hdom q hdr] at hlf; exact absurd hlf (by simp)
        have hlast := default_reject_false_last cfg q hdef
        refine ⟨[file], hq1, by simp, ?_, hq3⟩
        rw [hq1] at hlast
        simp only [List.getLast?_append, List.getLast?_singleton] at hlast
        simp only [List.mem_singleton]
        intro hgit
        exact hlast (by subst hgit; rfl)
      · obtain ⟨folder, _hfolder, hrej, _hdesc, hmem⟩ := h
        have hlf : lf (current ++ [folder]) = false :=
          (Bool.or_eq_false_iff.mp hrej).1
        have hdef : default_reject_fn cfg (current ++ [folder]) = false := by
          cases hdr : default_reject_fn cfg (current ++ [folder])
          · rfl
          · rw [hdom _ hdr] at hlf; exact absurd hlf (by simp)
        have hfoldergit : folder ≠ ".git" := by
          have hlast := default_reject_false_last cfg _ hdef
          simp only [List.getLast?_append, List.getLast?_singleton] at hlast
          intro hgit
          exact hlast (by subst hgit; rfl)
        obtain ⟨s1, hs1, hs1ne, hs1git, hs1wit⟩ :=
          (ih (current ++ [folder]) _ (dominates_step fs cfg current lf hdom)).1 q hmem
        refine ⟨folder :: s1, by rw [hs1, List.append_assoc]; rfl, by simp, ?_, hs1wit⟩
        simp only [List.mem_cons, not_or]
        exact ⟨fun hgit => hfoldergit hgit.symm, fun hmem2 => hs1git hmem2⟩
    · intro d hd
      rcases mem_recursion_snd fs cfg n current lf d hd with hd | h
      · exact ⟨[], by rw [hd]; simp, by simp⟩
      · obtain ⟨folder, _hfolder, hrej, _hdesc, hmem⟩ := h
        have hlf : lf (current ++ [folder]) = false :=
          (Bool.or_eq_false_iff.mp hrej).1
        have hdef : default_reject_fn cfg (current ++ [folder]) = false := by
          cases hdr : default_reject_fn cfg (current ++ [folder])
          · rfl
          · rw [hdom _ hdr] at hlf; exact absurd hlf (by simp)
        have hfoldergit : folder ≠ ".git" := by
          have hlast := default_reject_false_last cfg _ hdef
          simp only [List.getLast?_append, List.getLast?_singleton] at hlast
          intro hgit
          exact hlast (by subst hgit; rfl)
        obtain ⟨s1, hs1, hs1git⟩ :=
          (ih (current ++ [folder]) _ (dominates_step fs cfg current lf hdom)).2 d hmem
        refine ⟨folder :: s1, by rw [hs1, List.append_assoc]; rfl, ?_⟩
        simp only [List.mem_cons, not_or]
        exact ⟨fun hgit => hfoldergit hgit.symm, fun hmem2 => hs1git hmem2⟩

/-- When repo mode is off or found no root, the search root is the target
directory. -/
theorem search_root_eq_dirpath (fs : FS) (dirpath : List String) (repo : Bool)
    (h : (repo && (repo_root_of fs dirpath repo).isSome) = false) :
    search_root_of fs dirpath repo = dirpath := by
  rcases Bool.and_eq_false_iff.mp h with h1 | h1
  · unfold search_root_of repo_root_of
    rw [if_neg (by rw [h1]; exact Bool.false_ne_true)]
    rfl
  · have h2 : repo_root_of fs dirpath repo = none :=
      Option.not_isSome_iff_eq_none.mp (by simp [h1])
    unfold search_root_of
    rw [h2]
    rfl

/-- When a repo root was located, the search root is that root, an
ancestor of the target directory. -/
theorem search_root_eq_root (fs : FS) (dirpath : List String) (repo : Bool)
    (rr : List String) (h : repo_root_of fs dirpath repo = some rr) :
    search_root_of fs dirpath repo = rr ∧ rr <+: dirpath := by
  constructor
  · unfold search_root_of; rw [h]; rfl
  · have hfind : find_repo_root fs dirpath = some rr := by
      unfold repo_root_of at h
      split at h
      · exact h
      · exact absurd h (by simp)
    exact find_repo_root_prefix fs dirpath rr hfind

/-- Relativization below the target keeps a `.git`-free suffix free of
`.git` (the equal-paths case produces `["."]`). -/
theorem relpath_no_git (dirpath u : List String) (hu : ".git" ∉ u) :
    ".git" ∉ relpathParts (dirpath ++ u) dirpath := by
  cases u with
  | nil =>
    rw [List.append_nil]
    unfold relpathParts
    rw [show commonPrefixLen dirpath dirpath = dirpath.length by
      simpa using commonPrefixLen_append dirpath []]
    simp
  | cons a u2 =>
    rw [relpathParts_append _ _ (by simp)]
    exact hu

/-- C3: for every snapshot, working directory, target directory, repo
setting and inclusion argument, no returned path has a component equal to
`.git`, and the walk never descends into a directory named `.git`: every
scanned directory extends the search root by a `.git`-free suffix. -/
theorem c3_repo_marker_never_returned (fs : FS) (cwd dirpath : List String)
    (repo : Bool) (included_dirs : List String) :
    (∀ r ∈ list_files fs cwd dirpath repo included_dirs, ".git" ∉ r) ∧
    (∀ d ∈ (list_files_core fs cwd dirpath repo included_dirs).2,
      ".git" ∉ d.drop (search_root_of fs dirpath repo).length) := by
  have hinv := recursion_no_git fs (walkCfgOf fs cwd dirpath repo included_dirs)
    (fuelOf fs) (search_root_of fs dirpath repo)
    (default_reject_fn (walkCfgOf fs cwd dirpath repo included_dirs))
    (fun p h => h)
  constructor
  · intro r hr
    unfold list_files at hr
    rw [List.mem_map] at hr
    obtain ⟨q, hq, hrq⟩ := hr
    have hq2 : q ∈ (recursion fs (walkCfgOf fs cwd dirpath repo included_dirs)
        (fuelOf fs) (search_root_of fs dirpath repo)
        (default_reject_fn (walkCfgOf fs cwd dirpath repo included_dirs))).1 := by
      simp only [list_files_core] at hq
      split at hq
      · simp at hq
      · exact hq
    obtain ⟨s, hs, _hsne, hsgit, hwit⟩ := hinv.1 q hq2
    subst hrq
    by_cases hrepo : ((walkCfgOf fs cwd dirpath repo included_dirs).repo &&
        (walkCfgOf fs cwd dirpath repo included_dirs).repo_root.isSome) = true
    · have hwithin := hwit hrepo
      have hsome : (repo_root_of fs dirpath repo).isSome = true := by
        have h2 := hrepo
        rw [Bool.and_eq_true] at h2
        exact h2.2
      obtain ⟨rr, hrr⟩ := Option.isSome_iff_exists.mp hsome
      obtain ⟨hsr, hpre⟩ := search_root_eq_root fs dirpath repo rr hrr
      rw [hsr] at hs
      obtain ⟨t, ht⟩ := hpre
      have hdq : dirpath <+: q := List.isPrefixOf_iff_prefix.mp hwithin
      have hts : t <+: s := by
        apply prefix_cancel_left rr
        rw [ht, ← hs]
        exact hdq
      obtain ⟨u, hu⟩ := hts
      have hqd : q = dirpath ++ u := by
        rw [hs, ← hu, ← List.append_assoc, ht]
      have hugit : ".git" ∉ u := fun hmemu =>
        hsgit (by rw [← hu]; exact List.mem_append_right t hmemu)
      rw [hqd]
      exact relpath_no_git dirpath u hugit
    · have hsr := search_root_eq_dirpath fs dirpath repo
        (Bool.of_not_eq_true hrepo)
      rw [hsr] at hs
      rw [hs]
      exact relpath_no_git dirpath s hsgit
  · intro d hd
    have hd2 : d ∈ (recursion fs (walkCfgOf fs cwd dirpath repo included_dirs)
        (fuelOf fs) (search_root_of fs dirpath repo)
        (default_reject_fn (walkCfgOf fs cwd dirpath repo included_dirs))).2 := by
      simp only [list_files_core] at hd
      split at hd
      · simp at hd
      · exact hd
    obtain ⟨s, hs, hsgit⟩ := hinv.2 d hd2
    rw [hs, List.drop_left]
    exact hsgit

/-- Witness for C3: the one-file tree's walk returns `a.txt`, whose path
has no `.git` component. -/
theorem c3_repo_marker_never_returned_witness :
    (["a.txt"] ∈ list_files fsSmall [] [] false []) ∧ ".git" ∉ (["a.txt"] : List String) :=
  ⟨by decide,
   (c3_repo_marker_never_returned fsSmall [] [] false []).1 ["a.txt"] (by decide)⟩

/-- The `files` list of a scan consists of the names of the regular-file
entries. -/
theorem get_folder_items_files_eq (es : List DirEntry) :
    (get_folder_items es).files =
      (es.filter (fun e => decide (e.kind = EntryKind.file))).map (fun e => e.name) := by
  induction es with
  | nil => rfl
  | cons e rest ih =>
    obtain ⟨nm, kd, ct⟩ := e
    cases kd <;> simp [get_folder_items, ih]

/-- The `folders` list of a scan consists of the names of the
regular-directory entries. -/
theorem get_folder_items_folders_eq (es : List DirEntry) :
    (get_folder_items es).folders =
      (es.filter (fun e => decide (e.kind = EntryKind.dir))).map (fun e => e.name) := by
  induction es with
  | nil => rfl
  | cons e rest ih =>
    obtain ⟨nm, kd, ct⟩ := e
    cases kd <;> simp [get_folder_items, ih]

/-- A name in the `files` list comes from a regular-file entry. -/
theorem mem_files_entry (es : List DirEntry) (f : String)
    (h : f ∈ (get_folder_items es).files) :
    ∃ e ∈ es, e.name = f ∧ e.kind = EntryKind.file := by
  rw [get_folder_items_files_eq, List.mem_map] at h
  obtain ⟨e, he, hn⟩ := h
  rw [List.mem_filter] at he
  exact ⟨e, he.1, hn, by simpa using he.2⟩

/-- A name in the `folders` list comes from a regular-directory entry. -/
theorem mem_folders_entry (es : List DirEntry) (f : String)
    (h : f ∈ (get_folder_items es).folders) :
    ∃ e ∈ es, e.name = f ∧ e.kind = EntryKind.dir := by
  rw [get_folder_items_folders_eq, List.mem_map] at h
  obtain ⟨e, he, hn⟩ := h
  rw [List.mem_filter] at he
  exact ⟨e, he.1, hn, by simpa using he.2⟩

/-- The structural invariant behind claim C6: every path the recursion
accepts names a regular-file entry of its parent's listing, and every
directory it scans other than the starting one names a regular-directory
entry of its parent's listing — so no symlink-classified entry is ever
emitted or descended into. -/
theorem recursion_entries_regular (fs : FS) (cfg : WalkCfg) :
    ∀ (fuel : Nat) (current : List String) (lf : List String → Bool),
      (∀ q ∈ (recursion fs cfg fuel current lf).1,
        ∃ e ∈ listingOf fs q.dropLast,
          e.name = q.getLastD "" ∧ e.kind = EntryKind.file) ∧
      (∀ d ∈ (recursion fs cfg fuel current lf).2, d = current ∨
        ∃ e ∈ listingOf fs d.dropLast,
          e.name = d.getLastD "" ∧ e.kind = EntryKind.dir) := by
  intro fuel
  induction fuel with
  | zero =>
    intro current lf
    constructor
    · intro q hq; simp [recursion] at hq
    · intro d hd; simp [recursion] at hd
  | succ n ih =>
    intro current lf
    constructor
    · intro q hq
      rcases mem_recursion_fst fs cfg n current lf q hq with ⟨file, hfile, heq⟩ | h
      · obtain ⟨hq1, _, _, _⟩ := fileStep_some _ _ _ _ _ heq
        obtain ⟨e, he, hn, hk⟩ := mem_files_entry _ _ hfile
        refine ⟨e, ?_, ?_, hk⟩
        · rw [hq1]
          simpa using he
        · rw [hq1, hn]
          simp
      · obtain ⟨folder, _hfolder, _hrej, _hdesc, hmem⟩ := h
        exact (ih (current ++ [folder]) _).1 q hmem
    · intro d hd
      rcases mem_recursion_snd fs cfg n current lf d hd with hd | h
      · exact Or.inl hd
      · obtain ⟨folder, hfolder, _hrej, _hdesc, hmem⟩ := h
        rcases (ih (current ++ [folder]) _).2 d hmem with hdnext | hentry
        · obtain ⟨e, he, hn, hk⟩ := mem_folders_entry _ _ hfolder
          refine Or.inr ⟨e, ?_, ?_, hk⟩
          · rw [hdnext]
            simpa using he
          · rw [hdnext, hn]
            simp
        · exact Or.inr hentry

/-- C6: symlink-classified entries (file symlinks, directory symlinks,
broken symlinks) are never traversed into and never appear among the
accepted paths: every accepted path names a regular-file entry of its
parent directory's listing, and every scanned directory other than the
search root names a regular-directory entry of its parent's listing. -/
theorem c6_symlinks_never_traversed_or_emitted (fs : FS) (cwd dirpath : List String)
    (repo : Bool) (included_dirs : List String) :
    (∀ q ∈ (list_files_core fs cwd dirpath repo included_dirs).1,
      ∃ e ∈ listingOf fs q.dropLast,
        e.name = q.getLastD "" ∧ e.kind = EntryKind.file) ∧
    (∀ d ∈ (list_files_core fs cwd dirpath repo included_dirs).2,
      d = search_root_of fs dirpath repo ∨
      ∃ e ∈ listingOf fs d.dropLast,
        e.name = d.getLastD "" ∧ e.kind = EntryKind.dir) := by
  have hinv := recursion_entries_regular fs (walkCfgOf fs cwd dirpath repo included_dirs)
    (fuelOf fs) (search_root_of fs dirpath repo)
    (default_reject_fn (walkCfgOf fs cwd dirpath repo included_dirs))
  constructor
  · intro q hq
    have hq2 : q ∈ (recursion fs (walkCfgOf fs cwd dirpath repo included_dirs)
        (fuelOf fs) (search_root_of fs dirpath repo)
        (default_reject_fn (walkCfgOf fs cwd dirpath repo included_dirs))).1 := by
      simp only [list_files_core] at hq
      split at hq
      · simp at hq
      · exact hq
    exact hinv.1 q hq2
  · intro d hd
    have hd2 : d ∈ (recursion fs (walkCfgOf fs cwd dirpath repo included_dirs)
        (fuelOf fs) (search_root_of fs dirpath repo)
        (default_reject_fn (walkCfgOf fs cwd dirpath repo included_dirs))).2 := by
      simp only [list_files_core] at hd
      split at hd
      · simp at hd
      · exact hd
    exact hinv.2 d hd2

/-- Witness for C6: on the tree with a file symlink `s`, the walk accepts
`a.txt`, and the theorem produces its regular-file entry. -/
theorem c6_symlinks_never_traversed_or_emitted_witness :
    (["a.txt"] ∈ (list_files_core fsSym [] [] false []).1) ∧
      ∃ e ∈ listingOf fsSym (["a.txt"] : List String).dropLast,
        e.name = (["a.txt"] : List String).getLastD "" ∧ e.kind = EntryKind.file :=
  ⟨by decide,
   (c6_symlinks_never_traversed_or_emitted fsSym [] [] false []).1 ["a.txt"] (by decide)⟩

/-- The ignore-text surgery changes no key: lookups at other directories
are untouched, and the surgered directory's listing is mapped
content-wise. -/
theorem listingOf_setIgnoreText (fs : FS) (d : List String) (t : String) (p : List String) :
    listingOf (setIgnoreText fs d t) p =
      if p = d then
        (listingOf fs p).map (fun e =>
          if e.name = ".gitignore" then ⟨e.name, e.kind, t⟩ else e)
      else listingOf fs p := by
  unfold setIgnoreText listingOf
  rw [List.find?_map]
  rw [show ((fun kv : List String × List DirEntry => decide (kv.1 = p)) ∘
      (fun kv : List String × List DirEntry =>
        if kv.1 = d then
          (kv.1, kv.2.map (fun e =>
            if e.name = ".gitignore" then (⟨e.name, e.kind, t⟩ : DirEntry) else e))
        else kv)) =
      (fun kv : List String × List DirEntry => decide (kv.1 = p)) from by
    funext kv
    simp only [Function.comp_apply]
    split <;> rfl]
  cases hf : fs.find? (fun kv => decide (kv.1 = p)) with
  | none => simp
  | some kv =>
    obtain ⟨k, v⟩ := kv
    have hk : k = p := by simpa using List.find?_some hf
    subst hk
    simp only [Option.map_some']
    by_cases hpd : k = d
    · rw [if_pos hpd, if_pos hpd]
      rfl
    · rw [if_neg hpd, if_neg hpd]

/-- Content surgery preserves every name and kind, so the scan partition
is unchanged. -/
theorem get_folder_items_substIgnore (es : List DirEntry) (t : String) :
    get_folder_items (es.map (fun e =>
      if e.name = ".gitignore" then ⟨e.name, e.kind, t⟩ else e)) =
      get_folder_items es := by
  induction es with
  | nil => rfl
  | cons e rest ih =>
    obtain ⟨nm, kd, ct⟩ := e
    by_cases hn : nm = ".gitignore" <;> cases kd <;>
      simp [get_folder_items, ih, hn]

/-- After blanking the ignore text of a listing, the text read for its
`.gitignore` is empty. -/
theorem ignoreTextOf_substIgnore_empty (es : List DirEntry) :
    ignoreTextOf (es.map (fun e =>
      if e.name = ".gitignore" then ⟨e.name, e.kind, ""⟩ else e)) = "" := by
  unfold ignoreTextOf
  rw [List.find?_map]
  rw [show ((fun e : DirEntry => decide (e.name = ".gitignore")) ∘
      (fun e : DirEntry =>
        if e.name = ".gitignore" then (⟨e.name, e.kind, ""⟩ : DirEntry) else e)) =
      (fun e : DirEntry => decide (e.name = ".gitignore")) from by
    funext e
    simp only [Function.comp_apply]
    split <;> rfl]
  cases hf : es.find? (fun e => decide (e.name = ".gitignore")) with
  | none => simp
  | some e =>
    have he : e.name = ".gitignore" := by simpa using List.find?_some hf
    simp only [Option.map_some']
    rw [if_pos he]
    rfl

/-- A rule file that parses to no rules matches nothing. -/
theorem gitignoreMatcher_no_rules (text : String)
    (h : parseIgnoreRules text = []) (base cand : List String) :
    gitignoreMatcher text base cand = false := by
  unfold gitignoreMatcher
  rw [h]
  split
  · rfl
  · rfl

/-- When the directory `d`'s ignore text parses to no rules, blanking it
leaves every directory's composed local matcher pointwise unchanged. -/
theorem particularOf_setIgnoreText (fs : FS) (cfg : WalkCfg) (d : List String)
    (hmal : parseIgnoreRules (ignoreTextOf (listingOf fs d)) = [])
    (current p : List String) :
    particularOf (setIgnoreText fs d "") cfg current p =
      particularOf fs cfg current p := by
  unfold particularOf
  rw [listingOf_setIgnoreText]
  by_cases hc : current = d
  · rw [if_pos hc, get_folder_items_substIgnore]
    split
    · rw [ignoreTextOf_substIgnore_empty]
      rw [gitignoreMatcher_no_rules "" (by rfl) current p]
      rw [gitignoreMatcher_no_rules _ (by rw [hc]; exact hmal) current p]
    · rfl
  · rw [if_neg hc]

/-- Blanking a no-rule ignore file changes nothing the walk computes:
given pointwise-equal inherited predicates, the recursion over the
original snapshot and over the surgered one coincide at every fuel. -/
theorem recursion_setIgnoreText (fs : FS) (cfg : WalkCfg) (d : List String)
    (hmal : parseIgnoreRules (ignoreTextOf (listingOf fs d)) = []) :
    ∀ (fuel : Nat) (current : List String) (lf lf2 : List String → Bool),
      (∀ p, lf p = lf2 p) →
      recursion fs cfg fuel current lf =
        recursion (setIgnoreText fs d "") cfg fuel current lf2 := by
  intro fuel
  induction fuel with
  | zero => intro current lf lf2 _; rfl
  | succ n ih =>
    intro current lf lf2 hlf
    have hitems : get_folder_items (listingOf (setIgnoreText fs d "") current) =
        get_folder_items (listingOf fs current) := by
      rw [listingOf_setIgnoreText]
      split
      · rw [get_folder_items_substIgnore]
      · rfl
    have hrej : ∀ p, (lf p || particularOf fs cfg current p) =
        (lf2 p || particularOf (setIgnoreText fs d "") cfg current p) := by
      intro p
      rw [hlf p, particularOf_setIgnoreText fs cfg d hmal current p]
    have hfile : fileStep cfg (fun f => lf f || particularOf fs cfg current f) current =
        fileStep cfg
          (fun f => lf2 f || particularOf (setIgnoreText fs d "") cfg current f) current := by
      funext file
      simp only [fileStep]
      simp only [hrej]
    simp only [recursion]
    rw [hitems, hfile]
    have hsubs : (fun folder =>
        if (fun f => lf f || particularOf fs cfg current f) (current ++ [folder]) then
          (([], []) : List (List String) × List (List String))
        else if should_descend cfg (current ++ [folder]) then
          recursion fs cfg n (current ++ [folder])
            (fun f => lf f || particularOf fs cfg current f)
        else ([], [])) =
        (fun folder =>
        if (fun f => lf2 f || particularOf (setIgnoreText fs d "") cfg current f)
            (current ++ [folder]) then
          (([], []) : List (List String) × List (List String))
        else if should_descend cfg (current ++ [folder]) then
          recursion (setIgnoreText fs d "") cfg n (current ++ [folder])
            (fun f => lf2 f || particularOf (setIgnoreText fs d "") cfg current f)
        else ([], [])) := by
      funext folder
      rw [ih (current ++ [folder]) _ _ hrej]
      rw [show ((fun f => lf f || particularOf fs cfg current f) (current ++ [folder])) =
        ((fun f => lf2 f || particularOf (setIgnoreText fs d "") cfg current f)
          (current ++ [folder])) from hrej (current ++ [folder])]
    rw [hsubs]

/-- The surgery keeps every key, hence the fuel bound. -/
theorem fuelOf_setIgnoreText (fs : FS) (d : List String) (t : String) :
    fuelOf (setIgnoreText fs d t) = fuelOf fs := by
  unfold fuelOf setIgnoreText
  congr 1
  have h : ∀ (l : FS) (init : Nat),
      (l.map (fun kv =>
        if kv.1 = d then
          (kv.1, kv.2.map (fun e =>
            if e.name = ".gitignore" then (⟨e.name, e.kind, t⟩ : DirEntry) else e))
        else kv)).foldl (fun m kv => max m kv.1.length) init =
      l.foldl (fun m kv => max m kv.1.length) init := by
    intro l
    induction l with
    | nil => intro init; rfl
    | cons kv rest ih =>
      intro init
      simp only [List.map_cons, List.foldl_cons]
      rw [ih]
      congr 2
      split
      · rfl
      · rfl
  exact h fs 0

/-- The surgery does not affect where `.git` entries exist. -/
theorem gitExistsAt_setIgnoreText (fs : FS) (d : List String) (t : String)
    (p : List String) : gitExistsAt (setIgnoreText fs d t) p = gitExistsAt fs p := by
  unfold gitExistsAt
  rw [listingOf_setIgnoreText]
  split
  · rw [List.any_map]
    congr 1
    funext e
    simp only [Function.comp_apply]
    split <;> rfl
  · rfl

/-- The repo-root search is unaffected by the surgery. -/
theorem find_repo_root_setIgnoreText (fs : FS) (d : List String) (t : String)
    (p : List String) :
    find_repo_root (setIgnoreText fs d t) p = find_repo_root fs p := by
  unfold find_repo_root
  congr 1
  funext q
  rw [gitExistsAt_setIgnoreText]

/-- The search root is unaffected by the surgery. -/
theorem search_root_of_setIgnoreText (fs : FS) (d : List String) (t : String)
    (dirpath : List String) (repo : Bool) :
    search_root_of (setIgnoreText fs d t) dirpath repo =
      search_root_of fs dirpath repo := by
  unfold search_root_of repo_root_of
  rw [find_repo_root_setIgnoreText]

/-- The walk configuration is unaffected by the surgery. -/
theorem walkCfgOf_setIgnoreText (fs : FS) (d : List String) (t : String)
    (cwd dirpath : List String) (repo : Bool) (included_dirs : List String) :
    walkCfgOf (setIgnoreText fs d t) cwd dirpath repo included_dirs =
      walkCfgOf fs cwd dirpath repo included_dirs := by
  unfold walkCfgOf repo_root_of
  rw [find_repo_root_setIgnoreText]

/-- C2: a malformed local ignore rule file — one whose contents parse to
no rules — is behaviourally inert: the walk never aborts (it is a total
function of the snapshot) and returns exactly what it returns when that
directory's rule file is blank, i.e. the directory contributes no
additional local rules and the rest of the tree is still traversed. -/
theorem c2_malformed_ignore_is_inert (fs : FS) (d : List String)
    (cwd dirpath : List String) (repo : Bool) (included_dirs : List String)
    (hmal : parseIgnoreRules (ignoreTextOf (listingOf fs d)) = []) :
    list_files fs cwd dirpath repo included_dirs =
      list_files (setIgnoreText fs d "") cwd dirpath repo included_dirs ∧
    list_files_core fs cwd dirpath repo included_dirs =
      list_files_core (setIgnoreText fs d "") cwd dirpath repo included_dirs := by
  have hcore : list_files_core fs cwd dirpath repo included_dirs =
      list_files_core (setIgnoreText fs d "") cwd dirpath repo included_dirs := by
    simp only [list_files_core]
    rw [walkCfgOf_setIgnoreText, search_root_of_setIgnoreText, fuelOf_setIgnoreText]
    rw [← recursion_setIgnoreText fs _ d hmal (fuelOf fs)
      (search_root_of fs dirpath repo) _ _ (fun p => rfl)]
  refine ⟨?_, hcore⟩
  unfold list_files
  rw [hcore]

/-- Witness for C2: the tree whose root ignore file is the malformed line
`"!"` walks identically to the same tree with a blank ignore file. -/
theorem c2_malformed_ignore_is_inert_witness :
    (parseIgnoreRules (ignoreTextOf (listingOf fsMal [])) = []) ∧
    (list_files fsMal [] [] false [] =
        list_files (setIgnoreText fsMal [] "") [] [] false [] ∧
      list_files_core fsMal [] [] false [] =
        list_files_core (setIgnoreText fsMal [] "") [] [] false []) :=
  ⟨by decide, c2_malformed_ignore_is_inert fsMal [] [] [] false [] (by decide)⟩

/-- Splitting never yields an empty list of pieces. -/
theorem splitChar_ne_nil (sep : Char) (cs : List Char) : splitChar sep cs ≠ [] := by
  cases cs with
  | nil => simp [splitChar]
  | cons c rest =>
    show (match splitChar sep rest with
      | [] => [[c]]
      | h :: t => if c = sep then [] :: h :: t else (c :: h) :: t) ≠ []
    cases splitChar sep rest with
    | nil => simp
    | cons h t =>
      show (if c = sep then [] :: h :: t else (c :: h) :: t) ≠ []
      by_cases hc : c = sep
      · rw [if_pos hc]; simp
      · rw [if_neg hc]; simp

/-- A character list without the separator splits to itself alone. -/
theorem splitChar_no_sep (sep : Char) (cs : List Char) (h : sep ∉ cs) :
    splitChar sep cs = [cs] := by
  induction cs with
  | nil => rfl
  | cons c rest ih =>
    have hc : c ≠ sep := fun hc => h (hc ▸ List.mem_cons_self c rest)
    have hrest : sep ∉ rest := fun hr => h (List.mem_cons_of_mem c hr)
    show (match splitChar sep rest with
      | [] => [[c]]
      | h :: t => if c = sep then [] :: h :: t else (c :: h) :: t) = [c :: rest]
    rw [ih hrest]
    show (if c = sep then [] :: [rest] ++ [] else (c :: rest) :: []) = [c :: rest]
    rw [if_neg hc]

/-- Splitting at the first separator occurrence peels off the clean piece
before it. -/
theorem splitChar_append_sep (sep : Char) (xs rest : List Char) (h : sep ∉ xs) :
    splitChar sep (xs ++ sep :: rest) = xs :: splitChar sep rest := by
  induction xs with
  | nil =>
    rw [List.nil_append]
    show (match splitChar sep rest with
      | [] => [[sep]]
      | h :: t => if sep = sep then [] :: h :: t else (sep :: h) :: t) =
      [] :: splitChar sep rest
    cases hs : splitChar sep rest with
    | nil => exact absurd hs (splitChar_ne_nil sep rest)
    | cons h2 t2 =>
      show (if sep = sep then [] :: h2 :: t2 else (sep :: h2) :: t2) = [] :: h2 :: t2
      rw [if_pos rfl]
  | cons x xs2 ih =>
    have hx : x ≠ sep := fun hc => h (hc ▸ List.mem_cons_self x xs2)
    have hxs : sep ∉ xs2 := fun hr => h (List.mem_cons_of_mem x hr)
    rw [List.cons_append]
    show (match splitChar sep (xs2 ++ sep :: rest) with
      | [] => [[x]]
      | h :: t => if x = sep then [] :: h :: t else (x :: h) :: t) =
      (x :: xs2) :: splitChar sep rest
    rw [ih hxs]
    show (if x = sep then [] :: xs2 :: splitChar sep rest
      else (x :: xs2) :: splitChar sep rest) = (x :: xs2) :: splitChar sep rest
    rw [if_neg hx]

/-- Splitting inverts joining for nonempty, separator-free pieces. -/
theorem splitChar_joinChars (sep : Char) (css : List (List Char)) (hne : css ≠ [])
    (h : ∀ x ∈ css, sep ∉ x) :
    splitChar sep (joinChars sep css) = css := by
  induction css with
  | nil => exact absurd rfl hne
  | cons x t ih =>
    cases t with
    | nil =>
      show splitChar sep x = [x]
      exact splitChar_no_sep sep x (h x (List.mem_cons_self x []))
    | cons y t2 =>
      show splitChar sep (x ++ sep :: joinChars sep (y :: t2)) = x :: y :: t2
      rw [splitChar_append_sep sep x _ (h x (List.mem_cons_self x (y :: t2)))]
      rw [ih (by simp) (fun z hz => h z (List.mem_cons_of_mem x hz))]

/-- Every piece of a split is separator-free. -/
theorem splitChar_pieces_no_sep (sep : Char) (cs : List Char) :
    ∀ piece ∈ splitChar sep cs, sep ∉ piece := by
  induction cs with
  | nil =>
    intro piece hp
    rw [show splitChar sep [] = [[]] from rfl] at hp
    simp only [List.mem_singleton] at hp
    subst hp
    simp
  | cons c rest ih =>
    intro piece hp
    have hp2 : piece ∈ (match splitChar sep rest with
      | [] => [[c]]
      | h :: t => if c = sep then [] :: h :: t else (c :: h) :: t) := hp
    cases hs : splitChar sep rest with
    | nil => exact absurd hs (splitChar_ne_nil sep rest)
    | cons h2 t2 =>
      rw [hs] at hp2
      by_cases hc : c = sep
      · rw [show (match h2 :: t2 with
          | [] => [[c]]
          | h :: t => if c = sep then [] :: h :: t else (c :: h) :: t) =
          (if c = sep then [] :: h2 :: t2 else (c :: h2) :: t2) from rfl,
          if_pos hc] at hp2
        rcases List.mem_cons.mp hp2 with hp3 | hp3
        · subst hp3; simp
        · exact ih piece (by rw [hs]; exact hp3)
      · rw [show (match h2 :: t2 with
          | [] => [[c]]
          | h :: t => if c = sep then [] :: h :: t else (c :: h) :: t) =
          (if c = sep then [] :: h2 :: t2 else (c :: h2) :: t2) from rfl,
          if_neg hc] at hp2
        rcases List.mem_cons.mp hp2 with hp3 | hp3
        · subst hp3
          intro hmem
          rcases List.mem_cons.mp hmem with he | he
          · exact hc he.symm
          · exact ih h2 (by rw [hs]; exact List.mem_cons_self h2 t2) he
        · exact ih piece (by rw [hs]; exact List.mem_cons_of_mem h2 hp3)

/-- Components accumulated by `normpath`'s loop are nonempty and
slash-free whenever the incoming components are slash-free. -/
theorem normpath_comps_clean (comps : List String) :
    ∀ (slashes : Nat) (acc : List String),
      (∀ c ∈ acc, c ≠ "" ∧ '/' ∉ c.data) →
      (∀ c ∈ comps, '/' ∉ c.data) →
      ∀ c ∈ comps.foldl (normpathStep slashes) acc, c ≠ "" ∧ '/' ∉ c.data := by
  induction comps with
  | nil => intro slashes acc hacc _ c hc; exact hacc c hc
  | cons comp rest ih =>
    intro slashes acc hacc hcomps c hc
    refine ih slashes (normpathStep slashes acc comp) ?_
      (fun x hx => hcomps x (List.mem_cons_of_mem comp hx)) c hc
    intro x hx
    unfold normpathStep at hx
    split at hx
    · exact hacc x hx
    · rename_i hnd
      split at hx
      · rw [List.mem_append] at hx
        rcases hx with hx | hx
        · exact hacc x hx
        · rw [List.mem_singleton] at hx
          subst hx
          exact ⟨fun hxe => hnd (Or.inl hxe), hcomps x (List.mem_cons_self x rest)⟩
      · split at hx
        · exact hacc x (List.dropLast_subset acc hx)
        · exact hacc x hx

/-- The pieces `str.split("/")` yields contain no slash. -/
theorem strSplitSlash_no_slash (s : String) : ∀ c ∈ strSplitSlash s, '/' ∉ c.data := by
  intro c hc
  unfold strSplitSlash at hc
  rw [List.mem_map] at hc
  obtain ⟨piece, hp, hcp⟩ := hc
  subst hcp
  exact splitChar_pieces_no_sep '/' s.data piece hp

/-- A string whose first character is not a slash has no leading
slashes. -/
theorem initialSlashes_of_head_ne (s : String) (ch : Char) (tail : List Char)
    (hs : s.data = ch :: tail) (h : ch ≠ '/') : initialSlashes s = 0 := by
  unfold initialSlashes
  rw [hs]
  split
  · rename_i heq
    injection heq with h1 _
    exact absurd h1 h
  · rename_i heq
    injection heq with h1 _
    exact absurd h1 h
  · rename_i heq
    injection heq with h1 _
    exact absurd h1 h
  · rfl

/-- Joining nonempty slash-free components yields a relative string. -/
theorem initialSlashes_strJoinSlash_clean (cs : List String)
    (h : ∀ c ∈ cs, c ≠ "" ∧ '/' ∉ c.data) :
    initialSlashes (strJoinSlash cs) = 0 := by
  cases cs with
  | nil => rfl
  | cons c t =>
    obtain ⟨hne, hns⟩ := h c (List.mem_cons_self c t)
    cases hcd : c.data with
    | nil =>
      exact absurd (show c = "" from congrArg String.mk hcd) hne
    | cons ch chrest =>
      have hch : ch ≠ '/' := fun he => hns (by rw [hcd, he]; exact List.mem_cons_self _ _)
      have hdata : ∃ tail, (strJoinSlash (c :: t)).data = ch :: tail := by
        unfold strJoinSlash
        cases t with
        | nil => exact ⟨chrest, by simp [joinChars, hcd]⟩
        | cons y t2 =>
          exact ⟨chrest ++ '/' :: joinChars '/' ((y :: t2).map String.data),
            by simp [joinChars, hcd]⟩
      obtain ⟨tail, htail⟩ := hdata
      exact initialSlashes_of_head_ne _ ch tail htail hch

/-- `Path(...).parts` of a join of nonempty slash-free components gives
those components back. -/
theorem pathParts_strJoinSlash (cs : List String) (hne : cs ≠ [])
    (h : ∀ c ∈ cs, c ≠ "" ∧ '/' ∉ c.data) :
    pathParts (strJoinSlash cs) = cs := by
  have hsplit : strSplitSlash (strJoinSlash cs) = cs := by
    unfold strSplitSlash strJoinSlash
    rw [show (String.mk (joinChars '/' (cs.map String.data))).data =
      joinChars '/' (cs.map String.data) from rfl]
    rw [splitChar_joinChars '/' (cs.map String.data)
      (fun hemp => hne (List.map_eq_nil_iff.mp hemp))
      (by
        intro x hx
        rw [List.mem_map] at hx
        obtain ⟨c, hc, hcx⟩ := hx
        subst hcx
        exact (h c hc).2)]
    rw [List.map_map]
    rw [show (String.mk ∘ String.data) = id from funext fun c => rfl, List.map_id]
  have h0 : initialSlashes (strJoinSlash cs) = 0 :=
    initialSlashes_strJoinSlash_clean cs h
  simp only [pathParts]
  rw [h0, hsplit]
  show cs.filter (fun c => c ≠ "") = cs
  rw [List.filter_eq_self.mpr]
  intro a ha
  simpa using (h a ha).1

/-- On slash-free nonempty components, `os.path.join` of `parts` is the
slash join. -/
theorem joinParts_eq_strJoinSlash (cs : List String)
    (h : ∀ c ∈ cs, c ≠ "" ∧ '/' ∉ c.data) :
    joinParts cs = strJoinSlash cs := by
  cases cs with
  | nil => decide
  | cons c t =>
    obtain ⟨_hne, hns⟩ := h c (List.mem_cons_self c t)
    show (if c.data.getLast? = some '/' then String.mk (c.data ++ (strJoinSlash t).data)
      else strJoinSlash (c :: t)) = strJoinSlash (c :: t)
    rw [if_neg (fun hlast => hns (List.mem_of_getLast?_eq_some hlast))]

/-- The roundtrip behind claim C7 (relative case): for a nonempty
relative string that does not normalize to `"."`, the `parts` of its
normalization are nonempty and joining them gives the normalization
back. -/
theorem normpath_relative_roundtrip (d : String) (h0 : d ≠ "")
    (hrel : initialSlashes d = 0) (hdot : normpath d ≠ ".") :
    pathParts (normpath d) ≠ [] ∧ joinParts (pathParts (normpath d)) = normpath d := by
  have hclean : ∀ c ∈ (strSplitSlash d).foldl (normpathStep 0) [],
      c ≠ "" ∧ '/' ∉ c.data :=
    normpath_comps_clean (strSplitSlash d) 0 [] (by simp) (strSplitSlash_no_slash d)
  have hnp0 : normpath d =
      (if strJoinSlash ((strSplitSlash d).foldl (normpathStep 0) []) = "" then "."
       else strJoinSlash ((strSplitSlash d).foldl (normpathStep 0) [])) := by
    simp only [normpath]
    rw [if_neg h0, hrel]
    rw [List.replicate_zero, List.nil_append]
  have hne2 : strJoinSlash ((strSplitSlash d).foldl (normpathStep 0) []) ≠ "" := by
    intro he
    rw [hnp0, if_pos he] at hdot
    exact hdot rfl
  have hnp : normpath d = strJoinSlash ((strSplitSlash d).foldl (normpathStep 0) []) := by
    rw [hnp0, if_neg hne2]
  have hcsne : (strSplitSlash d).foldl (normpathStep 0) [] ≠ [] := by
    intro he
    apply hne2
    rw [he]
    decide
  have hpp : pathParts (normpath d) = (strSplitSlash d).foldl (normpathStep 0) [] := by
    rw [hnp]
    exact pathParts_strJoinSlash _ hcsne hclean
  constructor
  · rw [hpp]; exact hcsne
  · rw [hpp, hnp]
    exact joinParts_eq_strJoinSlash _ hclean

/-- Inserting keeps old members. -/
theorem mem_insertIfAbsent_of_mem (xs : List String) (y x : String) (h : y ∈ xs) :
    y ∈ insertIfAbsent xs x := by
  unfold insertIfAbsent
  split
  · exact h
  · exact List.mem_append_left _ h

/-- The inserted element is a member afterwards. -/
theorem mem_insertIfAbsent_self (xs : List String) (x : String) :
    x ∈ insertIfAbsent xs x := by
  unfold insertIfAbsent
  split
  · assumption
  · exact List.mem_append_right _ (List.mem_singleton.mpr rfl)

/-- Folding insertions keeps old members. -/
theorem mem_foldl_insert_of_mem (js : List String) :
    ∀ (acc : List String) (y : String), y ∈ acc → y ∈ js.foldl insertIfAbsent acc := by
  induction js with
  | nil => intro acc y h; exact h
  | cons j rest ih =>
    intro acc y h
    exact ih (insertIfAbsent acc j) y (mem_insertIfAbsent_of_mem acc y j h)

/-- Folding insertions adds every inserted element. -/
theorem mem_foldl_insert_of_mem_list (js : List String) :
    ∀ (acc : List String) (y : String), y ∈ js → y ∈ js.foldl insertIfAbsent acc := by
  induction js with
  | nil => intro acc y h; exact absurd h (List.not_mem_nil y)
  | cons j rest ih =>
    intro acc y h
    rcases List.mem_cons.mp h with h | h
    · subst h
      exact mem_foldl_insert_of_mem rest (insertIfAbsent acc y) y
        (mem_insertIfAbsent_self acc y)
    · exact ih (insertIfAbsent acc j) y h

/-- The fold invariant of `expand_with_ancestors`: whenever every pending
input is a relative string not normalizing to `"."`, each collected leaf
lies in the expanded accumulator together with all its proper
ancestors. -/
theorem expand_foldl_inv (ds : List String) :
    ∀ acc : List String × List String,
      (∀ d ∈ ds, d ≠ "" → initialSlashes d = 0 ∧ normpath d ≠ ".") →
      (∀ l ∈ acc.1, l ∈ acc.2 ∧ ∀ a ∈ properAncestors l, a ∈ acc.2) →
      ∀ l ∈ (ds.foldl expandStep acc).1,
        l ∈ (ds.foldl expandStep acc).2 ∧
        ∀ a ∈ properAncestors l, a ∈ (ds.foldl expandStep acc).2 := by
  induction ds with
  | nil => intro acc _ hacc l hl; exact hacc l hl
  | cons d rest ih =>
    intro acc hds hacc l hl
    refine ih (expandStep acc d)
      (fun x hx => hds x (List.mem_cons_of_mem d hx)) ?_ l hl
    intro x hx
    by_cases hd0 : d = ""
    · rw [show expandStep acc d = acc from by unfold expandStep; rw [if_pos hd0]] at hx ⊢
      exact hacc x hx
    · obtain ⟨hrel, hdot⟩ := hds d (List.mem_cons_self d rest) hd0
      obtain ⟨hppne, hjoin⟩ := normpath_relative_roundtrip d hd0 hrel hdot
      have hstep : expandStep acc d =
          (insertIfAbsent acc.1 (normpath d),
           (ancestorJoins (pathParts (normpath d))).foldl insertIfAbsent acc.2) := by
        unfold expandStep
        rw [if_neg hd0]
      rw [hstep] at hx ⊢
      simp only at hx ⊢
      unfold insertIfAbsent at hx
      split at hx
      · obtain ⟨h1, h2⟩ := hacc x hx
        exact ⟨mem_foldl_insert_of_mem _ _ _ h1,
          fun a ha => mem_foldl_insert_of_mem _ _ _ (h2 a ha)⟩
      · rw [List.mem_append] at hx
        rcases hx with hx | hx
        · obtain ⟨h1, h2⟩ := hacc x hx
          exact ⟨mem_foldl_insert_of_mem _ _ _ h1,
            fun a ha => mem_foldl_insert_of_mem _ _ _ (h2 a ha)⟩
        · rw [List.mem_singleton] at hx
          subst hx
          constructor
          · apply mem_foldl_insert_of_mem_list
            unfold ancestorJoins
            rw [List.mem_map]
            refine ⟨(pathParts (normpath d)).length - 1, ?_, ?_⟩
            · rw [List.mem_range]
              have : (pathParts (normpath d)).length ≠ 0 :=
                fun he => hppne (List.length_eq_zero.mp he)
              omega
            · have hlen : (pathParts (normpath d)).length - 1 + 1 =
                  (pathParts (normpath d)).length := by
                have : (pathParts (normpath d)).length ≠ 0 :=
                  fun he => hppne (List.length_eq_zero.mp he)
                omega
              rw [hlen, List.take_length]
              exact hjoin
          · intro a ha
            apply mem_foldl_insert_of_mem_list
            unfold properAncestors at ha
            rw [List.mem_map] at ha
            obtain ⟨i, hi, hai⟩ := ha
            unfold ancestorJoins
            rw [List.mem_map]
            rw [List.mem_range] at hi
            exact ⟨i, by rw [List.mem_range]; omega, hai⟩

/-- C7 (amended): for relative inputs, the expanded set contains every
leaf and every proper ancestor of every leaf; and if any *nonempty* input
normalizes to the current-directory marker, both sets are empty.  (The
original claim fails only for the empty-string input, which the loop
skips before normalizing: see the counterexample.) -/
theorem c7_expander_superset_and_dot (ds : List String)
    (hrel : ∀ d ∈ ds, initialSlashes d = 0) :
    (∀ l ∈ (expand_with_ancestors ds).1,
      l ∈ (expand_with_ancestors ds).2 ∧
      ∀ a ∈ properAncestors l, a ∈ (expand_with_ancestors ds).2) ∧
    ((∃ d ∈ ds, d ≠ "" ∧ normpath d = ".") → expand_with_ancestors ds = ([], [])) := by
  constructor
  · intro l hl
    cases hg : ds.any (fun d => !(d = "") && (normpath d = "." || normpath d = "")) with
    | true =>
      rw [show expand_with_ancestors ds = ([], []) from by
        unfold expand_with_ancestors; rw [if_pos hg]] at hl
      exact absurd hl (List.not_mem_nil l)
    | false =>
      have hng : ∀ d ∈ ds, d ≠ "" → normpath d ≠ "." := by
        intro d hd hdne hddot
        have := List.any_eq_false.mp hg d hd
        apply this
        simp [hdne, hddot]
      rw [show expand_with_ancestors ds = ds.foldl expandStep ([], []) from by
        unfold expand_with_ancestors; rw [if_neg (by rw [hg]; exact Bool.false_ne_true)]] at hl ⊢
      exact expand_foldl_inv ds ([], [])
        (fun d hd hdne => ⟨hrel d hd, hng d hd hdne⟩)
        (fun x hx => absurd hx (List.not_mem_nil x)) l hl
  · intro ⟨d, hd, hdne, hddot⟩
    unfold expand_with_ancestors
    rw [if_pos (List.any_eq_true.mpr ⟨d, hd, by simp [hdne, hddot]⟩)]

/-- Counterexample to C7 as stated: the empty string is skipped by the
loop although `os.path.normpath("") == "."`, so the sets are not forced
empty. -/
theorem c7_counterexample_empty_string :
    ("" ∈ (["", "a"] : List String)) ∧ normpath "" = "." ∧
      expand_with_ancestors ["", "a"] ≠ ([], []) := by decide

/-- Witness for C7: `["x/y"]` puts the leaf and its ancestor `"x"` in the
expanded set, and the nonempty input `"."` empties both sets. -/
theorem c7_expander_superset_and_dot_witness :
    (("x/y" ∈ (expand_with_ancestors ["x/y"]).2 ∧
      ∀ a ∈ properAncestors "x/y", a ∈ (expand_with_ancestors ["x/y"]).2) ∧
      expand_with_ancestors ["a", "."] = ([], [])) :=
  ⟨(c7_expander_superset_and_dot ["x/y"] (by decide)).1 "x/y" (by decide),
   (c7_expander_superset_and_dot ["a", "."] (by decide)).2 ⟨".", by decide, by decide, by decide⟩⟩
